import Mathlib

/-!
Verification of the `swanky-cli` project-conversion and task-queue subsystem
(`src/commands/init/index.ts`, the `Init` command) against its specification.

The TypeScript source is shallowly embedded: plain JavaScript values produced
by `TOML.parse` / `readJSON` are modelled by the inductive `JVal` (strings,
integers, booleans, arrays, objects; floats and datetimes are omitted, no
claim touches them), stateful flows become explicit state passing, and code
that can throw returns `Option`/`Except`.
-/

namespace Swanky

/-- A plain JavaScript value as produced by `TOML.parse` or `readJSON`:
string, integer, boolean, array, or object (an ordered association list of
string keys, unique in every value produced by a JS runtime). -/
inductive JVal where
  | str (s : String)
  | int (n : Int)
  | bool (b : Bool)
  | arr (xs : List JVal)
  | obj (kvs : List (String × JVal))
deriving Repr

/-- JavaScript truthiness of a `JVal`: `""`, `0` and `false` are falsy;
arrays and objects are always truthy. -/
def JVal.truthy : JVal → Bool
  | .str s => !(s == "")
  | .int n => !(n == 0)
  | .bool b => b
  | .arr _ => true
  | .obj _ => true

/-- Property read `o[k]` on an association list: the first binding wins
(JS objects have unique keys; first-match keeps the model total). -/
def getKey (k : String) : List (String × α) → Option α
  | [] => none
  | (k', v) :: rest => if k' = k then some v else getKey k rest

/-- Property write `o[k] = v` on an association list: an existing key keeps
its position and gets the new value, a new key is appended — exactly the JS
object update order. -/
def setKey (k : String) (v : α) : List (String × α) → List (String × α)
  | [] => [(k, v)]
  | (k', w) :: rest => if k' = k then (k', v) :: rest else (k', w) :: setKey k v rest

/-- The characters after the last `/`: `seg` accumulates the current
segment and is reset at each separator. -/
def basenameChars (seg : List Char) : List Char → List Char
  | [] => seg
  | c :: cs => if c = '/' then basenameChars [] cs else basenameChars (seg ++ [c]) cs

/-- `path.basename`: the final segment of a `/`-separated path (paths here
carry no trailing separator). -/
def basename (p : String) : String := ⟨basenameChars [] p.data⟩

/-- Whether `pat` is a prefix of the character list. -/
def charsHavePrefix : List Char → List Char → Bool
  | [], _ => true
  | _ :: _, [] => false
  | c :: cs, d :: ds => c == d && charsHavePrefix cs ds

/-- Whether `pat` occurs as a contiguous substring. -/
def charsInclude (pat : List Char) : List Char → Bool
  | [] => charsHavePrefix pat []
  | c :: cs => charsHavePrefix pat (c :: cs) || charsInclude pat cs

/-- `String.prototype.includes`: substring test. -/
def strIncludes (s pat : String) : Bool := charsInclude pat.data s.data

/-- `path.resolve(root, name)` for a simple relative `name` under an
absolute `root`. -/
def resolvePath (root name : String) : String := root ++ "/" ++ name

/-! ## Workspace manifest (claim C1)

`readRootCargoToml` and the root-manifest portion of `Init.convert`
(source lines 375–389 and 546–555). A parsed root `Cargo.toml` is a
top-level table `List (String × JVal)`; `none` models a missing file. -/

/-- `readRootCargoToml`, from the source: returns `null` (`none`) when the
project has no root `Cargo.toml`; otherwise the parsed table, with a missing
or falsy `workspace` entry replaced by an empty table
(`if (!toml.workspace) toml.workspace = {}`). -/
def readRootCargoToml (file : Option (List (String × JVal))) :
    Option (List (String × JVal)) :=
  file.map fun kvs =>
    match getKey "workspace" kvs with
    | some v => if v.truthy then kvs else setKey "workspace" (.obj []) kvs
    | none => setKey "workspace" (.obj []) kvs

/-- The root-manifest step of `Init.convert` (source lines 375–389): read the
root `Cargo.toml`, synthesize `{ workspace: {} }` when it was `null`, then
assign `rootToml.workspace.members = ["contracts/*"]`. In JS the assignment
throws a `TypeError` when `workspace` is a truthy primitive; a truthy
non-table `workspace` (impossible in a well-formed workspace manifest) is
therefore modelled as a failed conversion (`none`). -/
def convertRootToml (file : Option (List (String × JVal))) :
    Option (List (String × JVal)) :=
  let rootToml := (readRootCargoToml file).getD [("workspace", .obj [])]
  match getKey "workspace" rootToml with
  | some (.obj ws) =>
      some (setKey "workspace"
        (.obj (setKey "members" (.arr [.str "contracts/*"]) ws)) rootToml)
  | _ => none

theorem getKey_setKey_self (k : String) (v : α) (l : List (String × α)) :
    getKey k (setKey k v l) = some v := by
  induction l with
  | nil => simp [getKey, setKey]
  | cons hd tl ih =>
    obtain ⟨k', w⟩ := hd
    by_cases h : k' = k <;> simp [getKey, setKey, h, ih]

/-- C1: whenever the convert flow produces a root workspace manifest (for a
missing source manifest the synthesized empty one, otherwise the parsed one),
the written manifest's `workspace.members` is exactly `["contracts/*"]` —
any pre-existing member list is discarded. -/
theorem convert_workspace_members (file : Option (List (String × JVal)))
    (out : List (String × JVal)) (h : convertRootToml file = some out) :
    ∃ ws, getKey "workspace" out = some (.obj ws) ∧
      getKey "members" ws = some (.arr [.str "contracts/*"]) := by
  simp only [convertRootToml] at h
  split at h
  · next ws heq =>
    refine ⟨setKey "members" (.arr [.str "contracts/*"]) ws, ?_, ?_⟩
    · rw [← Option.some_inj.mp h]
      exact getKey_setKey_self _ _ _
    · exact getKey_setKey_self _ _ _
  · exact absurd h (by simp)

/-- C1 witness: a source manifest whose workspace already lists members
`["existing"]` is rewritten so that `workspace.members = ["contracts/*"]`;
a missing source manifest yields the synthesized
`{ workspace: { members: ["contracts/*"] } }`. -/
theorem convert_workspace_members_witness :
    (∃ ws, getKey "workspace"
        [("workspace", JVal.obj [("members", JVal.arr [JVal.str "contracts/*"])]),
         ("x", JVal.int 1)] = some (.obj ws) ∧
      getKey "members" ws = some (.arr [.str "contracts/*"])) ∧
    (∃ ws, getKey "workspace"
        [("workspace", JVal.obj [("members", JVal.arr [JVal.str "contracts/*"])])]
          = some (.obj ws) ∧
      getKey "members" ws = some (.arr [.str "contracts/*"])) := by
  constructor
  · exact convert_workspace_members
      (some [("workspace", .obj [("members", .arr [.str "existing"])]), ("x", .int 1)])
      _ rfl
  · exact convert_workspace_members none _ rfl

/-! ## Candidate set and module-name resolution (claims C3, C5, C8)

`PathEntry`, `CopyCandidates`, `detectModuleNames` and `confirmCopyList`
(source lines 47–58, 423–450 and 463–503). Filesystem reads are abstracted
by an oracle `manifest : String → Option (List (String × JVal))` giving the
parsed `Cargo.toml` directly inside a directory path, `none` when that file
does not exist (a malformed manifest makes `TOML.parse` throw, which is
outside every input of this oracle and fatal in the source). -/

/-- One discovered filesystem candidate. `isDirectory` models
`dirent.isDirectory()`; `moduleName` holds the raw JS value the resolver
assigns (the declared package name, or the base name as a string). -/
structure PathEntry where
  name : String
  path : String
  isDirectory : Bool
  moduleName : Option JVal := none
deriving Repr

/-- The three candidate groups. A missing `tests` field of the JS object is
`none`. -/
structure CopyCandidates where
  contracts : List PathEntry
  crates : List PathEntry
  tests : Option (List PathEntry) := none
deriving Repr

/-- `toml.package?.name`: the declared package name, `none` when `package`
is absent or not a table or has no `name` entry. -/
def pkgName (toml : List (String × JVal)) : Option JVal :=
  match getKey "package" toml with
  | some (.obj pkg) => getKey "name" pkg
  | _ => none

/-- The loop body of `detectModuleNames` for one entry, also reporting
whether the non-fatal could-not-detect warning was printed: default the
module name to the path's base name; when the entry is a directory with a
`Cargo.toml` directly inside, use the manifest's truthy `package.name`, or
warn and keep the default when there is none. -/
def resolveEntryW (manifest : String → Option (List (String × JVal)))
    (entry : PathEntry) : PathEntry × Bool :=
  let moduleName := basename entry.path
  let extended := { entry with moduleName := some (.str moduleName) }
  if entry.isDirectory then
    match manifest entry.path with
    | some toml =>
      match pkgName toml with
      | some v =>
          if v.truthy then ({ extended with moduleName := some v }, false)
          else (extended, true)
      | none => (extended, true)
    | none => (extended, false)
  else (extended, false)

/-- The entry as enriched by `detectModuleNames`. -/
def resolveEntry (manifest : String → Option (List (String × JVal)))
    (entry : PathEntry) : PathEntry :=
  (resolveEntryW manifest entry).1

/-- Whether resolving the entry prints the non-fatal
"Could not detect the contract name" warning. -/
def resolveWarns (manifest : String → Option (List (String × JVal)))
    (entry : PathEntry) : Bool :=
  (resolveEntryW manifest entry).2

/-- `detectModuleNames`, from the source: builds a new candidate set whose
`tests` group is a copy of the input's (or `[]` when the input has none) and
whose `contracts` and `crates` groups hold the enriched entries, in order. -/
def detectModuleNames (manifest : String → Option (List (String × JVal)))
    (copyList : CopyCandidates) : CopyCandidates :=
  { contracts := copyList.contracts.map (resolveEntry manifest)
    crates := copyList.crates.map (resolveEntry manifest)
    tests := some (copyList.tests.getD []) }

/-- C3: for every entry of the contracts and crates groups, module-name
resolution yields the base name by default, the manifest's declared (truthy)
`package.name` for a directory whose manifest declares one, the base name
with the non-fatal warning when the directory's manifest declares none, and
always the base name for non-directory entries. -/
theorem detect_module_names_resolution
    (manifest : String → Option (List (String × JVal))) (cs : CopyCandidates) :
    (detectModuleNames manifest cs).contracts = cs.contracts.map (resolveEntry manifest)
  ∧ (detectModuleNames manifest cs).crates = cs.crates.map (resolveEntry manifest)
  ∧ ∀ e : PathEntry,
      (e.isDirectory = false →
        (resolveEntry manifest e).moduleName = some (.str (basename e.path))
        ∧ resolveWarns manifest e = false)
    ∧ (e.isDirectory = true → manifest e.path = none →
        (resolveEntry manifest e).moduleName = some (.str (basename e.path))
        ∧ resolveWarns manifest e = false)
    ∧ (∀ toml v, e.isDirectory = true → manifest e.path = some toml →
        pkgName toml = some v → v.truthy = true →
        (resolveEntry manifest e).moduleName = some v)
    ∧ (∀ toml, e.isDirectory = true → manifest e.path = some toml →
        (∀ v, pkgName toml = some v → v.truthy = false) →
        (resolveEntry manifest e).moduleName = some (.str (basename e.path))
        ∧ resolveWarns manifest e = true) := by
  refine ⟨rfl, rfl, fun e => ⟨?_, ?_, ?_, ?_⟩⟩
  · intro hdir
    simp [resolveEntry, resolveWarns, resolveEntryW, hdir]
  · intro hdir hfs
    simp [resolveEntry, resolveWarns, resolveEntryW, hdir, hfs]
  · intro toml v hdir hfs hname htruthy
    simp [resolveEntry, resolveEntryW, hdir, hfs, hname, htruthy]
  · intro toml hdir hfs hfalsy
    cases hname : pkgName toml with
    | none => simp [resolveEntry, resolveWarns, resolveEntryW, hdir, hfs, hname]
    | some v =>
      have := hfalsy v hname
      simp [resolveEntry, resolveWarns, resolveEntryW, hdir, hfs, hname, this]

/-- C3 witness: a directory `proj/foo` whose manifest declares
`package.name = "bar"` resolves to module name `"bar"`; a directory
`proj/nameless` whose manifest declares no name keeps `"nameless"` and
warns; a plain file `proj/baz.rs` keeps `"baz.rs"`. -/
theorem detect_module_names_resolution_witness :
    (resolveEntry
        (fun p => if p = "proj/foo"
          then some [("package", JVal.obj [("name", JVal.str "bar")])] else none)
        ⟨"foo", "proj/foo", true, none⟩).moduleName = some (.str "bar")
  ∧ (resolveEntry
        (fun p => if p = "proj/nameless" then some [("package", JVal.obj [])] else none)
        ⟨"nameless", "proj/nameless", true, none⟩).moduleName
      = some (.str "nameless")
  ∧ resolveWarns
        (fun p => if p = "proj/nameless" then some [("package", JVal.obj [])] else none)
        ⟨"nameless", "proj/nameless", true, none⟩ = true
  ∧ (resolveEntry (fun _ => none) ⟨"baz.rs", "proj/baz.rs", false, none⟩).moduleName
      = some (.str "baz.rs") := by
  have hfoo := (detect_module_names_resolution
      (fun p => if p = "proj/foo"
        then some [("package", JVal.obj [("name", JVal.str "bar")])] else none)
      ⟨[], [], none⟩).2.2 ⟨"foo", "proj/foo", true, none⟩
  have hnl := (detect_module_names_resolution
      (fun p => if p = "proj/nameless" then some [("package", JVal.obj [])] else none)
      ⟨[], [], none⟩).2.2 ⟨"nameless", "proj/nameless", true, none⟩
  have hbaz := (detect_module_names_resolution (fun _ => none)
      ⟨[], [], none⟩).2.2 ⟨"baz.rs", "proj/baz.rs", false, none⟩
  refine ⟨?_, ?_, ?_, ?_⟩
  · exact hfoo.2.2.1 [("package", JVal.obj [("name", JVal.str "bar")])]
      (.str "bar") rfl (by simp) rfl rfl
  · exact (hnl.2.2.2 [("package", JVal.obj [])] rfl (by simp)
      (by simp [pkgName, getKey])).1
  · exact (hnl.2.2.2 [("package", JVal.obj [])] rfl (by simp)
      (by simp [pkgName, getKey])).2
  · exact (hbaz.1 rfl).1

/-! ## Interactive confirmation gate (claims C5, C8)

`confirmCopyList` (source lines 463–503). The checkbox prompt lists the
contracts, then the crates, then the tests, every item pre-checked and
tagged with the group it came from; inquirer returns the checked values in
display order. The user's choice is modelled by one boolean mask per group
(an entry is kept iff its mask bit is `true`; missing bits count as
unchecked). The mutation `if (!candidatesList.tests) candidatesList.tests
= []` on the function's own input is modelled by returning the input as it
is left after the call alongside the result. -/

inductive CopyGroup where
  | contracts | crates | tests
deriving DecidableEq, Repr

/-- The checked sub-sequence of a choice list: entry `i` is kept iff bit `i`
of the mask is `true`. -/
def maskFilter : List α → List Bool → List α
  | [], _ => []
  | _, [] => []
  | x :: xs, b :: bs => if b then x :: maskFilter xs bs else maskFilter xs bs

/-- The `confirmedCopyList.forEach` partition: push each checked item into
the result group it was tagged with (`resultingList[item.group]?.push(item)`;
the JS item keeps its `group` property, which here is exactly the list the
entry is pushed into). -/
def pushPartition (acc : CopyCandidates) : List (PathEntry × CopyGroup) → CopyCandidates
  | [] => acc
  | (e, g) :: rest =>
    match g with
    | .contracts => pushPartition { acc with contracts := acc.contracts ++ [e] } rest
    | .crates => pushPartition { acc with crates := acc.crates ++ [e] } rest
    | .tests => pushPartition { acc with tests := some (acc.tests.getD [] ++ [e]) } rest

/-- `confirmCopyList`, from the source. First component: the input
candidate set as the call leaves it (a missing `tests` group is initialized
to `[]` — the one mutation of the input); second component: the
user-confirmed set, re-partitioned by tagged group. -/
def confirmCopyList (cs : CopyCandidates) (selC selK selT : List Bool) :
    CopyCandidates × CopyCandidates :=
  let csFixed := match cs.tests with
    | none => { cs with tests := some [] }
    | some _ => cs
  let chosen : List (PathEntry × CopyGroup) :=
    (maskFilter csFixed.contracts selC).map (fun e => (e, CopyGroup.contracts))
    ++ (maskFilter csFixed.crates selK).map (fun e => (e, CopyGroup.crates))
    ++ (maskFilter (csFixed.tests.getD []) selT).map (fun e => (e, CopyGroup.tests))
  (csFixed, pushPartition ⟨[], [], some []⟩ chosen)

theorem pushPartition_append (acc : CopyCandidates)
    (xs ys : List (PathEntry × CopyGroup)) :
    pushPartition acc (xs ++ ys) = pushPartition (pushPartition acc xs) ys := by
  induction xs generalizing acc with
  | nil => rfl
  | cons hd tl ih =>
    obtain ⟨e, g⟩ := hd
    cases g <;> simp [pushPartition, ih]

theorem pushPartition_contracts (acc : CopyCandidates) (xs : List PathEntry) :
    pushPartition acc (xs.map (fun e => (e, CopyGroup.contracts)))
      = { acc with contracts := acc.contracts ++ xs } := by
  induction xs generalizing acc with
  | nil => simp [pushPartition]
  | cons hd tl ih => simp [pushPartition, ih]

theorem pushPartition_crates (acc : CopyCandidates) (xs : List PathEntry) :
    pushPartition acc (xs.map (fun e => (e, CopyGroup.crates)))
      = { acc with crates := acc.crates ++ xs } := by
  induction xs generalizing acc with
  | nil => simp [pushPartition]
  | cons hd tl ih => simp [pushPartition, ih]

theorem pushPartition_tests (acc : CopyCandidates) (ts xs : List PathEntry)
    (h : acc.tests = some ts) :
    pushPartition acc (xs.map (fun e => (e, CopyGroup.tests)))
      = { acc with tests := some (ts ++ xs) } := by
  induction xs generalizing acc ts with
  | nil => simp [pushPartition, ← h]
  | cons hd tl ih =>
    simp only [List.map_cons, pushPartition, h, Option.getD_some]
    rw [ih _ (ts ++ [hd]) rfl]
    simp

/-- C5: the confirmation gate returns exactly the user-selected subset of
the input entries, each selected entry placed back in the group it belonged
to — deselection removes only the deselected entry and moves nothing across
groups. -/
theorem confirm_copy_list_selection (cs : CopyCandidates)
    (selC selK selT : List Bool) :
    (confirmCopyList cs selC selK selT).2 =
      { contracts := maskFilter cs.contracts selC
        crates := maskFilter cs.crates selK
        tests := some (maskFilter (cs.tests.getD []) selT) } := by
  cases h : cs.tests <;>
    simp [confirmCopyList, h, pushPartition_append, pushPartition_contracts,
      pushPartition_crates, pushPartition_tests]

/-- C8 counterexample: on an input with no `tests` group the confirmation
gate mutates its input — afterwards the input has `tests = []`, so it is
not unchanged. -/
theorem confirm_copy_list_mutates_input :
    (confirmCopyList ⟨[], [], none⟩ [] [] []).1 ≠ (⟨[], [], none⟩ : CopyCandidates) := by
  simp [confirmCopyList]

/-- C8 amended: the resolver builds a fresh candidate set (its `tests` group
is a copy of the input's), and the confirmation gate leaves the input's
contracts and crates groups and any present tests group unchanged; only
when the input has no tests group does the gate mutate it, initializing
that group to the empty list. -/
theorem stages_frame (manifest : String → Option (List (String × JVal)))
    (cs : CopyCandidates) (selC selK selT : List Bool) :
    (confirmCopyList cs selC selK selT).1.contracts = cs.contracts
  ∧ (confirmCopyList cs selC selK selT).1.crates = cs.crates
  ∧ (∀ ts, cs.tests = some ts → (confirmCopyList cs selC selK selT).1 = cs)
  ∧ (cs.tests = none →
      (confirmCopyList cs selC selK selT).1 = { cs with tests := some [] })
  ∧ (detectModuleNames manifest cs).tests = some (cs.tests.getD []) := by
  refine ⟨?_, ?_, ?_, ?_, rfl⟩ <;> cases h : cs.tests <;>
    simp [confirmCopyList, h]

/-- C8 amended witness: a set with an (empty) tests group comes back
unchanged from the gate; a set with no tests group comes back with
`tests = []`. -/
theorem stages_frame_witness :
    (confirmCopyList ⟨[], [], some []⟩ [] [] []).1 = (⟨[], [], some []⟩ : CopyCandidates)
  ∧ (confirmCopyList ⟨[], [], none⟩ [] [] []).1 = (⟨[], [], some []⟩ : CopyCandidates) := by
  constructor
  · exact (stages_frame (fun _ => none) ⟨[], [], some []⟩ [] [] []).2.2.1 [] rfl
  · exact (stages_frame (fun _ => none) ⟨[], [], none⟩ [] [] []).2.2.2.1 rfl

/-! ## Package manifest deep merge (claim C6)

The `package.json` merge task of `Init.convert` (source lines 405–419):
`merge(templatePJson, existingPJson)` with lodash's `merge`. Plain objects
merge recursively key-by-key (destination keys keep their positions, new
source keys are appended); array sources merge element-wise by index; any
other source value replaces the destination value; an object or array
source lands on a non-object destination as a deep copy of itself. -/

mutual

/-- lodash `merge(dst, src)` on plain JS values. -/
def jmerge : JVal → JVal → JVal
  | .obj a, .obj b => .obj (mergeInto a b)
  | .arr a, .arr b => .arr (mergeIdx a b)
  | _, .obj b => .obj b
  | _, .arr b => .arr b
  | _, s => s
termination_by _d s => (sizeOf s, 0, 0)

/-- Iterate the source object's bindings, assigning each into the
destination (lodash's `baseMerge` iterates source keys). -/
def mergeInto : List (String × JVal) → List (String × JVal) → List (String × JVal)
  | dst, [] => dst
  | dst, (k, w) :: rest => mergeInto (mergeKey dst k w) rest
termination_by _dst src => (sizeOf src, 1, 0)

/-- Assign the source binding `(k, w)` into the destination object: an
existing key keeps its position and receives the recursive merge of the two
values, a new key is appended. -/
def mergeKey : List (String × JVal) → String → JVal → List (String × JVal)
  | [], k, w => [(k, w)]
  | (k', v) :: rest, k, w =>
    if k' = k then (k', jmerge v w) :: rest else (k', v) :: mergeKey rest k w
termination_by dst _k w => (sizeOf w + 1, 0, sizeOf dst)

/-- Merge a source array into a destination array index by index; elements
beyond the shorter side are kept. -/
def mergeIdx : List JVal → List JVal → List JVal
  | xs, [] => xs
  | [], y :: ys => y :: mergeIdx [] ys
  | x :: xs, y :: ys => jmerge x y :: mergeIdx xs ys
termination_by _xs ys => (sizeOf ys, 1, 0)

end

theorem getKey_eq_none_of_not_mem {l : List (String × JVal)} {k : String}
    (h : k ∉ l.map Prod.fst) : getKey k l = none := by
  induction l with
  | nil => rfl
  | cons hd tl ih =>
    obtain ⟨k', v⟩ := hd
    simp only [List.map_cons, List.mem_cons, not_or] at h
    simp [getKey, Ne.symm h.1, ih h.2]

theorem getKey_mergeKey (dst : List (String × JVal)) (k : String) (w : JVal)
    (k' : String) :
    getKey k' (mergeKey dst k w) =
      if k' = k then
        (match getKey k dst with
         | some v => some (jmerge v w)
         | none => some w)
      else getKey k' dst := by
  induction dst with
  | nil =>
    by_cases h : k' = k
    · simp [mergeKey, getKey, h]
    · have h2 : ¬(k = k') := fun hh => h hh.symm
      simp [mergeKey, getKey, h, h2]
  | cons hd rest ih =>
    obtain ⟨ka, v⟩ := hd
    by_cases h1 : ka = k
    · subst h1
      by_cases h2 : ka = k'
      · subst h2
        simp [mergeKey, getKey]
      · have h3 : ¬(k' = ka) := fun hh => h2 hh.symm
        simp [mergeKey, getKey, h2, h3]
    · by_cases h2 : ka = k'
      · have hne2 : ¬(k' = k) := fun hh => h1 (h2.trans hh)
        simp [mergeKey, getKey, h1, h2, hne2]
      · simp [mergeKey, getKey, h1, h2, ih]

theorem getKey_mergeInto (b a : List (String × JVal)) (k : String)
    (hb : (b.map Prod.fst).Nodup) :
    getKey k (mergeInto a b) =
      match getKey k a, getKey k b with
      | some v, some w => some (jmerge v w)
      | some v, none => some v
      | none, some w => some w
      | none, none => none := by
  induction b generalizing a with
  | nil =>
    cases h : getKey k a <;> simp [mergeInto, getKey, h]
  | cons hd rest ih =>
    obtain ⟨k₀, w⟩ := hd
    simp only [List.map_cons, List.nodup_cons] at hb
    have hstep : mergeInto a ((k₀, w) :: rest) = mergeInto (mergeKey a k₀ w) rest := by
      simp [mergeInto]
    rw [hstep, ih _ hb.2, getKey_mergeKey]
    by_cases hk : k = k₀
    · subst hk
      rw [getKey_eq_none_of_not_mem hb.1]
      simp only [getKey, if_pos rfl]
      cases getKey k a <;> simp
    · have hk2 : ¬(k₀ = k) := fun hh => hk hh.symm
      simp only [if_neg hk, getKey, if_neg hk2]

/-- C6: the package-manifest merge is lodash's recursive deep merge: for a
key present in both objects the values merge recursively (so nested objects
merge key-by-key), a non-object external value replaces the template value,
keys present in only one side are kept, and the spec's `dependencies`
example evaluates as stated. -/
theorem package_json_deep_merge (a b : List (String × JVal))
    (hb : (b.map Prod.fst).Nodup) :
    jmerge (.obj a) (.obj b) = .obj (mergeInto a b)
  ∧ (∀ k, getKey k (mergeInto a b) =
      match getKey k a, getKey k b with
      | some v, some w => some (jmerge v w)
      | some v, none => some v
      | none, some w => some w
      | none, none => none)
  ∧ (∀ (d : JVal) (s : String), jmerge d (.str s) = .str s)
  ∧ (∀ (d : JVal) (n : Int), jmerge d (.int n) = .int n)
  ∧ (∀ (d : JVal) (c : Bool), jmerge d (.bool c) = .bool c)
  ∧ mergeInto [("dependencies", .obj [("a", .str "1.0")])]
      [("dependencies", .obj [("a", .str "2.0"), ("b", .str "1.0")])]
    = [("dependencies", .obj [("a", .str "2.0"), ("b", .str "1.0")])] := by
  refine ⟨by rw [jmerge.eq_def], fun k => getKey_mergeInto b a k hb, ?_, ?_, ?_, ?_⟩
  · intro d s; cases d <;> rw [jmerge.eq_def]
  · intro d n; cases d <;> rw [jmerge.eq_def]
  · intro d c; cases d <;> rw [jmerge.eq_def]
  · simp [mergeInto, mergeKey, jmerge, getKey]

/-- C6 witness: the spec's example — template
`{dependencies: {a: "1.0"}}` merged with external
`{dependencies: {a: "2.0", b: "1.0"}}` yields
`{dependencies: {a: "2.0", b: "1.0"}}`. -/
theorem package_json_deep_merge_witness :
    mergeInto [("dependencies", JVal.obj [("a", JVal.str "1.0")])]
      [("dependencies", JVal.obj [("a", JVal.str "2.0"), ("b", JVal.str "1.0")])]
    = [("dependencies", JVal.obj [("a", JVal.str "2.0"), ("b", JVal.str "1.0")])] :=
  (package_json_deep_merge
    [("dependencies", JVal.obj [("a", JVal.str "1.0")])]
    [("dependencies", JVal.obj [("a", JVal.str "2.0"), ("b", JVal.str "1.0")])]
    (by simp)).2.2.2.2.2

/-! ## Project-directory check (claim C7)

The guard at the top of `Init.run` (source lines 119–131): `stat` the
destination path; when it is a directory with at least one entry, throw
`InputError("Directory <name> is not empty!")`. The whole guard sits in a
`try`/`catch` whose handler ignores any error whose message contains
`"ENOENT"` and wraps every other error — including the guard's own
`InputError` — into `UnknownError("Unexpected error", { cause })`. -/

/-- The error classes of `lib/errors.js` that this flow can surface, plus
the plain Node `Error` thrown by `stat` on a missing path. -/
inductive ErrKind where
  | inputError | unknownError | fsError
deriving DecidableEq, Repr

/-- A thrown error: its class, its message, and (flattened to its class)
the wrapped `cause`, when any. -/
structure CliError where
  kind : ErrKind
  message : String
  causeKind : Option ErrKind := none
deriving DecidableEq, Repr

/-- The destination-directory guard of `Init.run`. `st` is the `stat`
result: `none` when the path does not exist (stat throws an `ENOENT`
error), otherwise whether the path is a directory and its entries.
Returns the error the guard surfaces, `none` when the run proceeds.
(`chalk.yellowBright` only colors `projectName`; the ANSI codes around it
cannot contain or break the substring `"ENOENT"`, so they are omitted.) -/
def checkProjectDir (projectName : String) (st : Option (Bool × List String)) :
    Option CliError :=
  let thrown : Option CliError :=
    match st with
    | none => some ⟨.fsError, "ENOENT: no such file or directory, stat", none⟩
    | some (isDir, files) =>
      if isDir && files.length > 0 then
        some ⟨.inputError, "Directory " ++ projectName ++ " is not empty!", none⟩
      else none
  match thrown with
  | none => none
  | some e =>
    if strIncludes e.message "ENOENT" then none
    else some ⟨.unknownError, "Unexpected error", some e.kind⟩

/-- C7: at a destination directory that exists and contains a file, the run
does fail before any task executes, but the surfaced error is an
`UnknownError` wrapping the guard's `InputError` — the guard's own `catch`
swallows the `InputError` it just threw — and a directory whose name
contains `ENOENT` is not rejected at all. -/
theorem check_project_dir_wraps_input_error :
    checkProjectDir "my_project" (some (true, ["a.txt"]))
      = some ⟨.unknownError, "Unexpected error", some .inputError⟩
  ∧ checkProjectDir "ENOENT_dir" (some (true, ["a.txt"])) = none
  ∧ checkProjectDir "my_project" none = none := by
  refine ⟨rfl, ?_, rfl⟩
  have : strIncludes "Directory ENOENT_dir is not empty!" "ENOENT" = true := rfl
  simp [checkProjectDir, this]

/-! ## Task queue executor (claims C2, C4)

The `for … of this.taskQueue` loop of `Init.run` (source lines 203–223).
A task is modelled by what its operation does when invoked (`outcome`),
whether a `callback` is registered, and its `shouldExitOnError` flag
(`none` = unspecified). Return values are JS values, `none` standing for
`undefined`. -/

/-- A queued `Task` as the executor sees it. -/
structure MTask where
  outcome : Except String (Option JVal)
  hasCallback : Bool := false
  shouldExitOnError : Option Bool := none

/-- Modelled from the spec: `Spinner.runCommand` (`lib/spinner`, not under
`src/`). Runs the operation; on success returns its value; on failure, if
`shouldExitOnError` (default `true`) rethrows the error, otherwise logs it
and returns normally (with `undefined`), so the loop continues. -/
def runCommand (t : MTask) : Except String (Option JVal) :=
  match t.outcome with
  | .ok v => .ok v
  | .error e => if t.shouldExitOnError.getD true then .error e else .ok none

/-- What a run of the queue did: the indices of the tasks whose operations
ran, the callback invocations `(task index, value passed)` in order, whether
the final success banner was printed, and the error that aborted the run,
if any. -/
structure ExecTrace where
  executed : List Nat
  callbackCalls : List (Nat × JVal)
  banner : Bool
  aborted : Option String

/-- The executor loop, from the source: run each task via `runCommand`; a
rethrown error aborts the whole run; on a normal return, `if (result &&
callback) callback(result)` invokes the callback only for a truthy result;
after the last task the success banner is printed. -/
def runQueueGo : Nat → List MTask → ExecTrace → ExecTrace
  | _, [], tr => { tr with banner := true }
  | i, t :: rest, tr =>
    match runCommand t with
    | .error e => { tr with executed := tr.executed ++ [i], aborted := some e }
    | .ok v =>
      runQueueGo (i + 1) rest
        { tr with
          executed := tr.executed ++ [i]
          callbackCalls := tr.callbackCalls ++
            (match v with
             | some w => if w.truthy && t.hasCallback then [(i, w)] else []
             | none => []) }

/-- Run the whole queue from a fresh trace. -/
def runQueue (tasks : List MTask) : ExecTrace :=
  runQueueGo 0 tasks ⟨[], [], false, none⟩

/-- Spec-side: a task whose operation fails and whose `shouldExitOnError`
flag is true (the default when unspecified). -/
def isFatalFailure (t : MTask) : Bool :=
  (match t.outcome with | .error _ => true | .ok _ => false)
    && t.shouldExitOnError.getD true

/-- Spec-side: index of the first fatally-failing task. -/
def firstFatal : List MTask → Option Nat
  | [] => none
  | t :: rest =>
    if isFatalFailure t then some 0 else (firstFatal rest).map (· + 1)

/-- Spec-side: how many tasks run — the whole queue, or everything up to
and including the first fatal failure. -/
def stopLen (tasks : List MTask) : Nat :=
  match firstFatal tasks with
  | none => tasks.length
  | some i => i + 1

/-- Spec-side: the error message of the first fatal failure. -/
def fatalMsg : List MTask → Option String
  | [] => none
  | t :: rest =>
    if isFatalFailure t then
      (match t.outcome with | .error e => some e | .ok _ => none)
    else fatalMsg rest

/-- Spec-side: the callback invocation an indexed task contributes — its
`(index, value)` when it succeeds with a truthy value and has a registered
callback, nothing otherwise. -/
def callOf (p : Nat × MTask) : Option (Nat × JVal) :=
  match p.2.outcome with
  | .ok (some w) => if w.truthy && p.2.hasCallback then some (p.1, w) else none
  | _ => none

/-- Spec-side: the callback invocations the spec predicts (indices offset
by `i`): among the tasks that run, each one that succeeded with a truthy
value and has a registered callback contributes `(its index, its value)`. -/
def expectedCalls (i : Nat) (tasks : List MTask) : List (Nat × JVal) :=
  ((tasks.take (stopLen tasks)).enumFrom i).filterMap callOf

theorem runQueueGo_spec (tasks : List MTask) : ∀ (i : Nat) (tr : ExecTrace),
    runQueueGo i tasks tr =
      { executed := tr.executed ++ List.range' i (stopLen tasks)
        callbackCalls := tr.callbackCalls ++ expectedCalls i tasks
        banner := if firstFatal tasks = none then true else tr.banner
        aborted := match fatalMsg tasks with
          | none => tr.aborted
          | some e => some e } := by
  induction tasks with
  | nil =>
    intro i tr
    simp [runQueueGo, stopLen, firstFatal, fatalMsg, expectedCalls]
  | cons t rest ih =>
    intro i tr
    by_cases hf : isFatalFailure t
    · obtain ⟨e, he⟩ : ∃ e, t.outcome = .error e := by
        unfold isFatalFailure at hf
        cases h : t.outcome <;> simp [h] at hf ⊢
      have hflag : t.shouldExitOnError.getD true = true := by
        unfold isFatalFailure at hf
        simp [he] at hf
        exact hf
      simp [runQueueGo, runCommand, he, hflag, stopLen, firstFatal, fatalMsg,
        expectedCalls, hf, List.range'_succ, callOf]
    · have hcmd : ∃ v, runCommand t = .ok v ∧
          (match v with
           | some w => if w.truthy && t.hasCallback then [(i, w)] else []
           | none => ([] : List (Nat × JVal)))
          = (callOf (i, t)).toList := by
        unfold isFatalFailure at hf
        cases h : t.outcome with
        | ok v =>
          refine ⟨v, by simp [runCommand, h], ?_⟩
          cases v with
          | none => simp [callOf, h]
          | some w => cases hb : w.truthy && t.hasCallback <;> simp [callOf, h, hb]
        | error e =>
          simp [h] at hf
          exact ⟨none, by simp [runCommand, h, hf], by simp [callOf, h]⟩
      obtain ⟨v, hcmd, hcalls⟩ := hcmd
      have hff : firstFatal (t :: rest) = (firstFatal rest).map (· + 1) := by
        rw [show firstFatal (t :: rest)
          = if isFatalFailure t then some 0 else (firstFatal rest).map (· + 1) from rfl]
        simp [hf]
      have hstop : stopLen (t :: rest) = stopLen rest + 1 := by
        unfold stopLen
        rw [hff]
        cases firstFatal rest <;> simp
      have hmsg : fatalMsg (t :: rest) = fatalMsg rest := by
        rw [show fatalMsg (t :: rest)
          = if isFatalFailure t then
              (match t.outcome with | .error e => some e | .ok _ => none)
            else fatalMsg rest from rfl]
        simp [hf]
      have htake : (t :: rest).take (stopLen (t :: rest)) =
          t :: rest.take (stopLen rest) := by
        rw [hstop]; rfl
      have hcalls2 : expectedCalls i (t :: rest) =
          (callOf (i, t)).toList ++ expectedCalls (i + 1) rest := by
        unfold expectedCalls
        rw [htake]
        rw [show List.enumFrom i (t :: rest.take (stopLen rest)) =
          (i, t) :: List.enumFrom (i + 1) (rest.take (stopLen rest)) from rfl]
        rw [List.filterMap_cons]
        cases h : callOf (i, t) <;> simp [h]
      simp only [runQueueGo, hcmd, ih, hcalls2, hstop, hff, hmsg]
      rw [← hcalls]
      have hrange : List.range' i (stopLen rest + 1) =
          i :: List.range' (i + 1) (stopLen rest) := List.range'_succ i (stopLen rest) 1
      simp only [hrange, List.append_assoc, List.singleton_append, List.cons_append]
      cases firstFatal rest <;> simp

/-- C2: the executor runs tasks strictly in FIFO order, each exactly once:
with no fatal failure it runs all of them and ends with the success banner
(also when non-fatal tasks failed along the way); with a first fatal
failure at index `i` it runs exactly tasks `0 … i`, prints no banner, and
surfaces the error. -/
theorem task_queue_execution (tasks : List MTask) :
    (runQueue tasks).executed = List.range (stopLen tasks)
  ∧ (firstFatal tasks = none →
      (runQueue tasks).executed = List.range tasks.length
      ∧ (runQueue tasks).banner = true ∧ (runQueue tasks).aborted = none)
  ∧ (∀ i, firstFatal tasks = some i →
      (runQueue tasks).executed = List.range (i + 1)
      ∧ (runQueue tasks).banner = false ∧ (runQueue tasks).aborted ≠ none) := by
  have h := runQueueGo_spec tasks 0 ⟨[], [], false, none⟩
  have hmsg : ∀ l, firstFatal l = none → fatalMsg l = none := by
    intro l
    induction l with
    | nil => simp [fatalMsg]
    | cons t rest ih =>
      intro hl
      unfold firstFatal at hl
      unfold fatalMsg
      by_cases hf : isFatalFailure t <;> simp [hf] at hl ⊢
      exact ih hl
  have hmsg2 : ∀ l i, firstFatal l = some i → fatalMsg l ≠ none := by
    intro l
    induction l with
    | nil => simp [firstFatal]
    | cons t rest ih =>
      intro i hl
      unfold firstFatal at hl
      unfold fatalMsg
      by_cases hf : isFatalFailure t
      · obtain ⟨e, he⟩ : ∃ e, t.outcome = .error e := by
          unfold isFatalFailure at hf
          cases h : t.outcome <;> simp [h] at hf ⊢
        simp [hf, he]
      · simp [hf] at hl ⊢
        obtain ⟨j, hj, _⟩ := hl
        exact ih j hj
  refine ⟨?_, ?_, ?_⟩
  · rw [runQueue, h]
    simp [List.range_eq_range']
  · intro hnone
    rw [runQueue, h]
    simp [hnone, hmsg tasks hnone, List.range_eq_range', stopLen]
  · intro i hi
    rw [runQueue, h]
    have : fatalMsg tasks ≠ none := hmsg2 tasks i hi
    cases hm : fatalMsg tasks with
    | none => exact absurd hm this
    | some e =>
      simp [hi, hm, List.range_eq_range', stopLen]

/-- C2 witness (the spec's own §8 scenarios): in a three-task queue whose
second task fails non-fatally, all three tasks run and the banner is
printed; when the second task fails with the default (fatal) flag, only
tasks 0 and 1 run, no banner, and the run is aborted. -/
theorem task_queue_execution_witness :
    (runQueue [⟨.ok none, false, none⟩, ⟨.error "boom", false, some false⟩,
        ⟨.ok none, false, none⟩]).executed = [0, 1, 2]
  ∧ (runQueue [⟨.ok none, false, none⟩, ⟨.error "boom", false, some false⟩,
        ⟨.ok none, false, none⟩]).banner = true
  ∧ (runQueue [⟨.ok none, false, none⟩, ⟨.error "boom", false, none⟩,
        ⟨.ok none, false, none⟩]).executed = [0, 1]
  ∧ (runQueue [⟨.ok none, false, none⟩, ⟨.error "boom", false, none⟩,
        ⟨.ok none, false, none⟩]).banner = false := by
  have h1 := (task_queue_execution [⟨.ok none, false, none⟩,
    ⟨.error "boom", false, some false⟩, ⟨.ok none, false, none⟩]).2.1 rfl
  have h2 := (task_queue_execution [⟨.ok none, false, none⟩,
    ⟨.error "boom", false, none⟩, ⟨.ok none, false, none⟩]).2.2 1 rfl
  exact ⟨h1.1, h1.2.1, h2.1, h2.2.1⟩

/-- C4 counterexample: a task that completes successfully returning the
falsy value `""` with a callback registered — the task runs, nothing
aborts, yet its callback is never invoked, because the source guards the
invocation with `if (result && callback)`. -/
theorem callback_skipped_on_falsy_result :
    (runQueue [⟨.ok (some (.str "")), true, none⟩]).executed = [0]
  ∧ (runQueue [⟨.ok (some (.str "")), true, none⟩]).aborted = none
  ∧ (runQueue [⟨.ok (some (.str "")), true, none⟩]).callbackCalls = []
  ∧ (runQueue [⟨.ok (some (.str "node/bin")), true, none⟩]).callbackCalls
      = [(0, .str "node/bin")] :=
  ⟨rfl, rfl, rfl, rfl⟩

/-- C4 amended: the executor invokes the callback with the operation's
return value exactly for the tasks that ran, succeeded, have a registered
callback, and returned a truthy value; a falsy return value (`undefined`,
`""`, `0`, `false`) does not trigger the callback. -/
theorem callback_invocation (tasks : List MTask) :
    (runQueue tasks).callbackCalls = expectedCalls 0 tasks := by
  have h := runQueueGo_spec tasks 0 ⟨[], [], false, none⟩
  rw [runQueue, h]
  simp

/-! ## Run planning and the config write (claim C9)

`Init.run`, `Init.generate` and `Init.convert` as queue builders (source
lines 114–224, 226–296, 298–420): the queue they assemble, abstracted to
task tags, and the `configBuilder.contracts` map as populated before the
executor loop starts. `snakeCase` (the external `change-case` library) is
an uninterpreted parameter. -/

/-- The tasks `Init` can enqueue, by their role. -/
inductive TaskTag where
  | copyCommon | checkDeps | copyContractTemplate | processTemplates
  | copyContracts | writeRootToml | copyWorkspaceFiles | mergePJson
  | installDeps | gitInit | downloadNode | writeConfig
deriving DecidableEq, BEq, Repr

/-- A `configBuilder.contracts` entry:
`{ name, moduleName, deployments: [] }`. -/
structure ContractInfo where
  name : String
  moduleName : JVal
  deployments : List JVal := []

/-- The prompt answers the generate flow uses for the contracts map. -/
structure GenerateAnswers where
  contractName : String

/-- What the convert flow has gathered by the time it populates the
builder: the confirmed-and-resolved candidate set, the parsed source root
`Cargo.toml` (or `none`), and whether the source has a `package.json`. -/
structure ConvertData where
  confirmed : CopyCandidates
  rootCargoToml : Option (List (String × JVal))
  hasPackageJson : Bool

/-- Which flow runs, with its inputs. -/
inductive InitMode where
  | generate (g : GenerateAnswers)
  | convert (c : ConvertData)

/-- The run's remaining inputs: the `--swanky-node` flag and the
"Do you want to download Swanky node?" answer. -/
structure InitOpts where
  mode : InitMode
  swankyNodeFlag : Bool
  useSwankyNode : Bool

/-- The contracts map the convert flow builds: one upserted entry per
confirmed contract (`this.configBuilder.contracts[contract.name] = …`). -/
def convertContracts (entries : List PathEntry) : List (String × ContractInfo) :=
  entries.foldl
    (fun acc e => setKey e.name ⟨e.name, e.moduleName.getD (.str ""), []⟩ acc) []

/-- The mode-specific front of the plan, from the source: the tasks
`Init.generate` resp. `Init.convert` enqueue (after the common-template
task) and the contracts map they leave in the builder; `none` when the
convert flow's root-manifest step throws. -/
def planStep (snake : String → String) :
    InitMode → Option (List TaskTag × List (String × ContractInfo))
  | .generate g =>
    some ([TaskTag.copyCommon]
        ++ [.checkDeps, .copyContractTemplate, .processTemplates],
      [(g.contractName, ⟨g.contractName, .str (snake g.contractName), []⟩)])
  | .convert c =>
    match convertRootToml c.rootCargoToml with
    | none => none
    | some _ =>
      some ([TaskTag.copyCommon] ++ [.processTemplates, .copyContracts]
          ++ [.writeRootToml, .copyWorkspaceFiles]
          ++ (if c.hasPackageJson then [.mergePJson] else []),
        convertContracts c.confirmed.contracts)

/-- `Init.run` as a planner, from the source: the task queue in enqueue
order together with the `configBuilder.contracts` map as it stands when the
executor loop starts — the mode-specific tasks, then dependency install and
git init, then (when the flag is absent and the prompt accepted) the node
download, and finally the config write. -/
def buildPlan (snake : String → String) (opts : InitOpts) :
    Option (List TaskTag × List (String × ContractInfo)) :=
  match planStep snake opts.mode with
  | none => none
  | some (q, contracts) =>
    some ((if !opts.swankyNodeFlag && opts.useSwankyNode
        then q ++ [.installDeps, .gitInit] ++ [.downloadNode]
        else q ++ [.installDeps, .gitInit]) ++ [.writeConfig], contracts)

theorem getKey_setKey_other (k k' : String) (v : α) (l : List (String × α))
    (h : ¬(k' = k)) : getKey k' (setKey k v l) = getKey k' l := by
  induction l with
  | nil =>
    have h2 : ¬(k = k') := fun hh => h hh.symm
    simp [getKey, setKey, h2]
  | cons hd rest ih =>
    obtain ⟨ka, va⟩ := hd
    by_cases h1 : ka = k
    · subst h1
      have h2 : ¬(ka = k') := fun hh => h hh.symm
      simp [getKey, setKey, h2]
    · simp [getKey, setKey, h1, ih]

theorem getKey_foldl_setKey_mem (entries : List PathEntry) :
    ∀ (acc : List (String × ContractInfo)) (e : PathEntry),
      ((getKey e.name acc).isSome = true ∨ e ∈ entries) →
      (getKey e.name (entries.foldl
        (fun acc e => setKey e.name ⟨e.name, e.moduleName.getD (.str ""), []⟩ acc)
        acc)).isSome = true := by
  induction entries with
  | nil =>
    intro acc e h
    simp at h
    simpa using h
  | cons hd tl ih =>
    intro acc e h
    simp only [List.foldl_cons]
    apply ih
    by_cases hh : e.name = hd.name
    · left
      rw [hh, getKey_setKey_self]
      rfl
    · rcases h with h | h
      · left
        rwa [getKey_setKey_other _ _ _ _ hh]
      · rcases List.mem_cons.mp h with h | h
        · exact absurd (congrArg PathEntry.name h) hh
        · right; exact h

theorem getKey_convertContracts_mem (entries : List PathEntry) (e : PathEntry)
    (he : e ∈ entries) :
    (getKey e.name (convertContracts entries)).isSome :=
  getKey_foldl_setKey_mem entries [] e (Or.inr he)

theorem planStep_front (snake : String → String) (mode : InitMode)
    (q₀ : List TaskTag) (c₀ : List (String × ContractInfo))
    (h : planStep snake mode = some (q₀, c₀)) :
    q₀.count .writeConfig = 0
  ∧ (∀ g, mode = .generate g →
      c₀ = [(g.contractName, ⟨g.contractName, .str (snake g.contractName), []⟩)])
  ∧ (∀ c, mode = .convert c → c₀ = convertContracts c.confirmed.contracts) := by
  cases mode with
  | generate g =>
    simp only [planStep, Option.some.injEq, Prod.mk.injEq] at h
    obtain ⟨hq, hc⟩ := h
    refine ⟨by rw [← hq]; decide, ?_, ?_⟩
    · intro g' hg'
      injection hg' with hg'
      subst hg'
      exact hc.symm
    · intro c hc'
      cases hc'
  | convert c =>
    cases ht : convertRootToml c.rootCargoToml with
    | none =>
      simp only [planStep, ht] at h
      cases h
    | some t =>
      simp only [planStep, ht, Option.some.injEq, Prod.mk.injEq] at h
      obtain ⟨hq, hc⟩ := h
      refine ⟨?_, ?_, ?_⟩
      · rw [← hq]
        cases c.hasPackageJson <;> decide
      · intro g hg
        cases hg
      · intro c' hc'
        injection hc' with hc'
        subst hc'
        exact hc.symm

/-- C9: in every successfully planned run, the workspace-config write is
the final task of the queue and occurs exactly once; the contracts map that
this final task writes is already fully populated when the queue starts —
the generate flow's single entry, resp. one entry per confirmed convert
contract. -/
theorem config_written_once_last (snake : String → String) (opts : InitOpts)
    (q : List TaskTag) (contracts : List (String × ContractInfo))
    (h : buildPlan snake opts = some (q, contracts)) :
    q.getLast? = some .writeConfig
  ∧ q.count .writeConfig = 1
  ∧ (∀ g, opts.mode = .generate g →
      contracts = [(g.contractName, ⟨g.contractName, .str (snake g.contractName), []⟩)])
  ∧ (∀ c, opts.mode = .convert c →
      contracts = convertContracts c.confirmed.contracts
      ∧ ∀ e ∈ c.confirmed.contracts, (getKey e.name contracts).isSome) := by
  unfold buildPlan at h
  cases hs : planStep snake opts.mode with
  | none =>
    rw [hs] at h
    simp at h
  | some pc =>
    obtain ⟨q₀, c₀⟩ := pc
    rw [hs] at h
    simp only [Option.some.injEq, Prod.mk.injEq] at h
    obtain ⟨hq, hc⟩ := h
    subst hq
    subst hc
    have hstep := planStep_front snake opts.mode q₀ c₀ hs
    refine ⟨?_, ?_, ?_, ?_⟩
    · cases (!opts.swankyNodeFlag && opts.useSwankyNode) <;>
        simp [List.getLast?_concat]
    · cases (!opts.swankyNodeFlag && opts.useSwankyNode) <;>
        simp [List.count_append, hstep.1] <;> decide
    · exact hstep.2.1
    · intro c hc'
      have hcon := hstep.2.2 c hc'
      exact ⟨hcon, fun e he => by rw [hcon]; exact getKey_convertContracts_mem _ _ he⟩

/-- C9 witness: a concrete convert run (one confirmed contract `flipper`,
no source root manifest, a source `package.json`, Swanky node accepted)
plans a queue ending — exactly once — in the config write, with the
contracts map already holding `flipper`. -/
theorem config_written_once_last_witness :
    ([TaskTag.copyCommon, .processTemplates, .copyContracts, .writeRootToml,
        .copyWorkspaceFiles, .mergePJson, .installDeps, .gitInit, .downloadNode,
        .writeConfig].getLast? = some TaskTag.writeConfig)
  ∧ ([TaskTag.copyCommon, .processTemplates, .copyContracts, .writeRootToml,
        .copyWorkspaceFiles, .mergePJson, .installDeps, .gitInit, .downloadNode,
        .writeConfig].count TaskTag.writeConfig = 1)
  ∧ (getKey "flipper" (convertContracts
        [⟨"flipper", "old/contracts/flipper", true, some (.str "flip_mod")⟩])).isSome := by
  have h := config_written_once_last (fun s => s)
    ⟨.convert ⟨⟨[⟨"flipper", "old/contracts/flipper", true, some (.str "flip_mod")⟩],
        [], some []⟩, none, true⟩, false, true⟩
    [TaskTag.copyCommon, .processTemplates, .copyContracts, .writeRootToml,
      .copyWorkspaceFiles, .mergePJson, .installDeps, .gitInit, .downloadNode,
      .writeConfig]
    (convertContracts
      [⟨"flipper", "old/contracts/flipper", true, some (.str "flip_mod")⟩])
    rfl
  refine ⟨h.1, h.2.1, ?_⟩
  have := (h.2.2.2 _ rfl).2 ⟨"flipper", "old/contracts/flipper", true, some (.str "flip_mod")⟩
    (by simp)
  simpa using this

/-! ## Test-directory detection (claim C10)

`detectTests` (source lines 505–544). `fsExists` abstracts `pathExists`;
the prompt answers model the two `inquirer` confirms — by `when`-guards,
`shouldInputTestDir` is only asked (and hence only truthy) when no
directory was detected or the user declined the detected one. -/

/-- The probe order fixed by the source:
`["test", "tests", "spec", "specs"]`. -/
def testDirNames : List String := ["test", "tests", "spec", "specs"]

/-- The `for … of testDirNames` loop with `break`: the first candidate path
that exists. -/
def firstTestDir (fsExists : String → Bool) (root : String) :
    List String → Option String
  | [] => none
  | n :: rest =>
    if fsExists (resolvePath root n) then some (resolvePath root n)
    else firstTestDir fsExists root rest

/-- The user's answers to the two test-directory prompts, plus the
directory a manual `getManualPaths` round would return. -/
structure TestPromptAnswers where
  shouldUseDetectedTestDir : Bool
  shouldInputTestDir : Bool
  manualTestDir : String

/-- `detectTests`, from the source: probe for the first existing candidate;
ask whether to use it when found; when none was found, or the detected one
was declined, ask whether to input one manually (an unasked prompt leaves
its answer `undefined`, hence falsy); a manual answer wins, otherwise the
detected directory (even a declined one) is returned. -/
def detectTests (fsExists : String → Bool) (root : String)
    (ans : TestPromptAnswers) : Option String :=
  let testDir := firstTestDir fsExists root testDirNames
  let testDirDetected := testDir.isSome
  let shouldInput :=
    if (testDirDetected && !ans.shouldUseDetectedTestDir) || !testDirDetected
    then ans.shouldInputTestDir else false
  if shouldInput then some ans.manualTestDir else testDir

/-- C10: detection probes `test`, `tests`, `spec`, `specs` in that order and
the detected directory is the first of these that exists (`List.find?` over
the resolved candidates); when none exists and the user declines to supply
one manually, no test directory is returned. -/
theorem detect_tests_first_existing (fsExists : String → Bool) (root : String)
    (ans : TestPromptAnswers) :
    firstTestDir fsExists root testDirNames
      = (testDirNames.map (resolvePath root)).find? fsExists
  ∧ ((∀ n ∈ testDirNames, fsExists (resolvePath root n) = false) →
      ans.shouldInputTestDir = false →
      detectTests fsExists root ans = none) := by
  constructor
  · have : ∀ l : List String, firstTestDir fsExists root l
        = (l.map (resolvePath root)).find? fsExists := by
      intro l
      induction l with
      | nil => rfl
      | cons n rest ih =>
        by_cases h : fsExists (resolvePath root n) <;>
          simp [firstTestDir, List.find?, h, ih]
    exact this testDirNames
  · intro hnone hno
    have hfd : firstTestDir fsExists root testDirNames = none := by
      simp [testDirNames, firstTestDir,
        hnone "test" (by simp [testDirNames]),
        hnone "tests" (by simp [testDirNames]),
        hnone "spec" (by simp [testDirNames]),
        hnone "specs" (by simp [testDirNames])]
    simp [detectTests, hfd, hno]

/-- C10 witness: a project with only a `specs` subdirectory detects
`<root>/specs` (skipping the earlier names); a project with none of the
four, whose user declines manual input, yields no test directory. -/
theorem detect_tests_first_existing_witness :
    firstTestDir (fun p => p == "proj/specs") "proj" testDirNames
      = some "proj/specs"
  ∧ detectTests (fun _ => false) "proj" ⟨true, false, "ignored"⟩ = none := by
  constructor
  · have h := (detect_tests_first_existing (fun p => p == "proj/specs") "proj"
      ⟨true, false, "ignored"⟩).1
    rw [h]
    rfl
  · exact (detect_tests_first_existing (fun _ => false) "proj"
      ⟨true, false, "ignored"⟩).2 (fun n _ => rfl) rfl

end Swanky
